import Mathlib

/-!
Verification of the file-drop service core (`src/server.js`) of the
team-todo repository: path sanitization (`cleanRelPath`), the recursive
tree listing (`collectFiles`), and the upload / delete / create-folder /
move / zip route handlers.  Paths are modelled as lists of characters,
directory trees as an inductive type, and each route handler as a pure
function from its inputs to the HTTP-level outcome together with the
filesystem actions it performs.
-/

set_option autoImplicit false

/-- A path segment, as a list of characters. -/
abbrev Seg := List Char

/-- The backslash character, spelled via its code point. -/
def bslash : Char := Char.ofNat 92

/-- One character of `p.replace(/\\/g, '/')` (src/server.js:21): every
backslash becomes a forward slash. -/
def bsToSlash (c : Char) : Char := if c = bslash then '/' else c

/-- The safe character class `[a-zA-Z0-9._-]` of the sanitizer's segment
rewrite (src/server.js:24). -/
def isSafeChar (c : Char) : Bool :=
  c.isAlpha || c.isDigit || c = '.' || c = '_' || c = '-'

/-- The rewrite `segment.replace(/[^a-zA-Z0-9._-]/g, '_')` acting on one character
(src/server.js:24). -/
def sanitizeChar (c : Char) : Char := if isSafeChar c then c else '_'

/-- The filter predicate `segment && segment !== '..' && segment !== '.'`
(src/server.js:23): keep a segment iff it is nonempty and is neither `..`
nor `.`. -/
def keepSeg (s : Seg) : Bool :=
  decide (s ≠ [] ∧ s ≠ ['.', '.'] ∧ s ≠ ['.'])

/-- JavaScript `String.prototype.split('/')` on a character list: the
(always nonempty) list of chunks between slashes (src/server.js:22). -/
def splitOnSlash : List Char → List Seg
  | [] => [[]]
  | c :: rest =>
    match splitOnSlash rest with
    | [] => []
    | seg :: segs => if c = '/' then [] :: seg :: segs else (c :: seg) :: segs

/-- JavaScript `Array.prototype.join('/')` (src/server.js:25). -/
def joinSlash : List Seg → List Char
  | [] => []
  | [s] => s
  | s :: rest => s ++ '/' :: joinSlash rest

/-- The segment pipeline of `cleanRelPath` (src/server.js:19-26): replace
backslashes by slashes, split on `/`, drop empty, `.` and `..` segments,
then rewrite every unsafe character of the surviving segments to `_`. -/
def cleanSegs (l : List Char) : List Seg :=
  ((splitOnSlash (l.map bsToSlash)).filter keepSeg).map (fun s => s.map sanitizeChar)

/-- The sanitizer `cleanRelPath` (src/server.js:19-26): the sanitized relative path, the
surviving segments rejoined with `/`. -/
def cleanRelPath (p : String) : String :=
  String.mk (joinSlash (cleanSegs p.data))

/-- POSIX resolution of a relative chunk list against an absolute path
given as a segment list: empty and `.` chunks are ignored, `..` pops the
last segment, anything else is appended.  This models what the operating
system does with the string `path.join(UPLOAD_DIR, rel)` and is used to
state which absolute path a route handler touches. -/
def resolveSegs (acc : List Seg) : List Seg → List Seg
  | [] => acc
  | s :: rest =>
    if s = [] ∨ s = ['.'] then resolveSegs acc rest
    else if s = ['.', '.'] then resolveSegs acc.dropLast rest
    else resolveSegs (acc ++ [s]) rest

/-- The absolute path denoted by `path.join(root, rel)` for a relative
path `rel`, with `root` an absolute path as a segment list. -/
def resolvePath (root : List Seg) (rel : List Char) : List Seg :=
  resolveSegs root (splitOnSlash rel)


/-! ## Filesystem model and the tree listing `collectFiles` -/

/-- One directory entry as the listing and zip code observes it through
`fs.promises.readdir` + `fs.promises.stat`.  `stat` follows symbolic
links, so a link is observed as its target's kind: `symlinkFile` is a
link whose stat reports a regular file, `symlinkDir` a link whose stat
reports a directory (carrying the target directory's entries), and
`other` any entry whose stat reports neither a regular file nor a
directory (sockets, devices, links to such).  A dangling link, whose
`stat` call throws and aborts the whole listing with a 500 answer, is
outside this model. -/
inductive FSEntry where
  | file (name : String) (size : Nat) (mtime : Nat)
  | dir (name : String) (entries : List FSEntry)
  | other (name : String)
  | symlinkFile (name : String) (size : Nat) (mtime : Nat)
  | symlinkDir (name : String) (entries : List FSEntry)

/-- The name of a directory entry. -/
def FSEntry.name : FSEntry → String
  | .file n _ _ => n
  | .dir n _ => n
  | .other n => n
  | .symlinkFile n _ _ => n
  | .symlinkDir n _ => n

/-- One node of the tree returned by `collectFiles` (src/server.js:59-71):
a directory `{name, path, isDir: true, children}` or a file
`{name, path, isDir: false, size, uploadedAt, url}`. -/
inductive TreeNode where
  | dir (name : String) (path : String) (children : List TreeNode)
  | file (name : String) (path : String) (size : Nat) (uploadedAt : Nat) (url : String)

/-- The name of a tree node. -/
def TreeNode.name : TreeNode → String
  | .dir n _ _ => n
  | .file n _ _ _ _ => n

/-- The hidden-name test `name.startsWith('.')` (src/server.js:54). -/
def nameStartsWithDot (n : String) : Bool :=
  match n.data with
  | [] => false
  | c :: _ => c = '.'

/-- The join `path.join(rel, name)` for the relative paths built by `collectFiles`
(src/server.js:55): with an empty prefix the name itself, otherwise the
two joined with a slash. -/
def joinRel (rel name : String) : String :=
  if rel = "" then name else rel ++ "/" ++ name

/-- An uppercase hexadecimal digit. -/
def hexUpper (n : Nat) : Char :=
  if n < 10 then Char.ofNat (48 + n) else Char.ofNat (55 + n)

/-- The UTF-8 bytes of a character, as numbers below 256. -/
def utf8Bytes (c : Char) : List Nat :=
  let n := c.toNat
  if n < 128 then [n]
  else if n < 2048 then [192 + n / 64, 128 + n % 64]
  else if n < 65536 then [224 + n / 4096, 128 + (n / 64) % 64, 128 + n % 64]
  else [240 + n / 262144, 128 + (n / 4096) % 64, 128 + (n / 64) % 64, 128 + n % 64]

/-- The characters JavaScript's `encodeURIComponent` leaves unescaped:
letters, digits, and `- _ . ! ~ * ' ( )`. -/
def isUriUnreserved (c : Char) : Bool :=
  c.isAlpha || c.isDigit || c = '-' || c = '_' || c = '.' ||
  c = '!' || c = '~' || c = '*' || c = Char.ofNat 39 || c = '(' || c = ')'

/-- JavaScript `encodeURIComponent` on a character list: unreserved characters kept,
every other character percent-encoded byte by byte with uppercase hex. -/
def encodeUriChars (l : List Char) : List Char :=
  l.flatMap (fun c =>
    if isUriUnreserved c then [c]
    else (utf8Bytes c).flatMap (fun b => ['%', hexUpper (b / 16), hexUpper (b % 16)]))

/-- The rewrite `.replace(/%2F/g, '/')` (src/server.js:69): restore the slashes that
`encodeURIComponent` escaped. -/
def replacePct2F : List Char → List Char
  | '%' :: '2' :: 'F' :: rest => '/' :: replacePct2F rest
  | c :: rest => c :: replacePct2F rest
  | [] => []

/-- The download URL `/uploads/${encodeURIComponent(p).replace(/%2F/g, '/')}`
(src/server.js:69 and src/server.js:185). -/
def urlFor (p : String) : String :=
  String.mk ("/uploads/".data ++ replacePct2F (encodeUriChars p.data))

/-- The tree walk `collectFiles` (src/server.js:50-74): walk the entries of a directory
in order; entries whose name starts with `.` are skipped before anything
else, then the entry is dispatched on what `stat` reports —
`stats.isDirectory()` first (a directory or a link to one: recursed
into), then `stats.isFile()` (a regular file or a link to one: a leaf
node), and anything else is skipped.  The hidden-name check of the
source happens once before the kind dispatch; here it is repeated in
each constructor's branch, which is the same function. -/
def collectFiles (es : List FSEntry) (rel : String) : List TreeNode :=
  match es with
  | [] => []
  | .file n sz mt :: rest =>
    if nameStartsWithDot n then collectFiles rest rel
    else .file n (joinRel rel n) sz mt (urlFor (joinRel rel n)) :: collectFiles rest rel
  | .dir n cs :: rest =>
    if nameStartsWithDot n then collectFiles rest rel
    else .dir n (joinRel rel n) (collectFiles cs (joinRel rel n)) :: collectFiles rest rel
  | .other _ :: rest => collectFiles rest rel
  | .symlinkFile n sz mt :: rest =>
    if nameStartsWithDot n then collectFiles rest rel
    else .file n (joinRel rel n) sz mt (urlFor (joinRel rel n)) :: collectFiles rest rel
  | .symlinkDir n cs :: rest =>
    if nameStartsWithDot n then collectFiles rest rel
    else .dir n (joinRel rel n) (collectFiles cs (joinRel rel n)) :: collectFiles rest rel

/-- The entries of a listing with every non-file non-directory entry
removed, at every depth.  Spec-side description used to state that
`collectFiles` skips such entries. -/
def pruneOthers : List FSEntry → List FSEntry
  | [] => []
  | .file n sz mt :: rest => .file n sz mt :: pruneOthers rest
  | .dir n cs :: rest => .dir n (pruneOthers cs) :: pruneOthers rest
  | .other _ :: rest => pruneOthers rest
  | .symlinkFile n sz mt :: rest => .symlinkFile n sz mt :: pruneOthers rest
  | .symlinkDir n cs :: rest => .symlinkDir n (pruneOthers cs) :: pruneOthers rest

/-- The entries of a listing with every symbolic link replaced by the
kind its stat reports: a link statting as a regular file becomes that
regular file, a link statting as a directory becomes that directory, at
every depth.  Spec-side description used to state that the listing
follows links instead of skipping them. -/
def canonKinds : List FSEntry → List FSEntry
  | [] => []
  | .file n sz mt :: rest => .file n sz mt :: canonKinds rest
  | .dir n cs :: rest => .dir n (canonKinds cs) :: canonKinds rest
  | .other n :: rest => .other n :: canonKinds rest
  | .symlinkFile n sz mt :: rest => .file n sz mt :: canonKinds rest
  | .symlinkDir n cs :: rest => .dir n (canonKinds cs) :: canonKinds rest

/-- The entries of a listing with every hidden entry (name starting with
`.`) removed, at every depth.  Spec-side description used to state that
`collectFiles` skips hidden entries. -/
def pruneHidden : List FSEntry → List FSEntry
  | [] => []
  | .file n sz mt :: rest =>
    if nameStartsWithDot n then pruneHidden rest else .file n sz mt :: pruneHidden rest
  | .dir n cs :: rest =>
    if nameStartsWithDot n then pruneHidden rest else .dir n (pruneHidden cs) :: pruneHidden rest
  | .other n :: rest =>
    if nameStartsWithDot n then pruneHidden rest else .other n :: pruneHidden rest
  | .symlinkFile n sz mt :: rest =>
    if nameStartsWithDot n then pruneHidden rest
    else .symlinkFile n sz mt :: pruneHidden rest
  | .symlinkDir n cs :: rest =>
    if nameStartsWithDot n then pruneHidden rest
    else .symlinkDir n (pruneHidden cs) :: pruneHidden rest

/-- Whether a directory entry survives one level of the listing: not
hidden, and statting as a regular file or directory. -/
def keptEntry (e : FSEntry) : Bool :=
  !nameStartsWithDot e.name &&
    (match e with
     | .other _ => false
     | _ => true)

/-- The example root of the spec's listing property: `a.txt` (10 bytes),
`.hidden`, and a subdirectory `b` containing `c.txt` (3 bytes). -/
def exampleFS : List FSEntry :=
  [.file "a.txt" 10 100, .file ".hidden" 1 1, .dir "b" [.file "c.txt" 3 101]]

/-- The listing the spec expects for `exampleFS`: exactly `a.txt` and `b`
at the top level, `b` containing exactly `c.txt`, `.hidden` nowhere. -/
def exampleTree : List TreeNode :=
  [.file "a.txt" "a.txt" 10 100 "/uploads/a.txt",
   .dir "b" "b" [.file "c.txt" "b/c.txt" 3 101 "/uploads/b/c.txt"]]

/-! ## Route handlers -/

/-- What the delete route does once the path is sanitized
(src/server.js:195-212): with an empty relative path it answers
400 `Path required` without touching the filesystem; otherwise it stats
`path.join(UPLOAD_DIR, rel)` and removes whatever is there (recursively
for a directory).  `act t` records the absolute path the destructive
branch operates on. -/
inductive DeleteRes where
  | badRequest
  | act (target : List Seg)

/-- The body of `app.delete('/api/files')` after the `cleanRelPath` call
(src/server.js:197-205), as a function of the already-sanitized relative
path. -/
def deleteAfterSanitize (root : List Seg) (rel : String) : DeleteRes :=
  if rel = "" then .badRequest else .act (resolvePath root rel.data)

/-- The delete route (src/server.js:195-212): sanitize
`req.query.path || ''`, then run the body. -/
def deleteRoute (root : List Seg) (rawPath : String) : DeleteRes :=
  deleteAfterSanitize root (cleanRelPath rawPath)

/-- Outcome of the create-folder route: 400 `Folder path required`, or a
recursive `mkdir` at the recorded absolute path. -/
inductive FolderRes where
  | badRequest
  | act (target : List Seg)

/-- The body of `app.post('/api/folders')` after the `cleanRelPath` call
(src/server.js:217-219). -/
def folderAfterSanitize (root : List Seg) (rel : String) : FolderRes :=
  if rel = "" then .badRequest else .act (resolvePath root rel.data)

/-- The create-folder route (src/server.js:214-225). -/
def folderRoute (root : List Seg) (rawPath : String) : FolderRes :=
  folderAfterSanitize root (cleanRelPath rawPath)

/-- Outcome of the move route: 400 `Both from and to paths are required`,
or a `mkdir` of the destination's parent followed by a rename, with the
three absolute paths recorded. -/
inductive MoveRes where
  | badRequest
  | act (mkdirDir src dest : List Seg)

/-- The body of `app.post('/api/move')` after the two `cleanRelPath`
calls (src/server.js:231-237): `path.dirname(dest)` is the destination
absolute path with its last segment dropped. -/
def moveAfterSanitize (root : List Seg) (relFrom relTo : String) : MoveRes :=
  if relFrom = "" ∨ relTo = "" then .badRequest
  else
    .act (resolvePath root relTo.data).dropLast
      (resolvePath root relFrom.data) (resolvePath root relTo.data)

/-- The move route (src/server.js:227-244). -/
def moveRoute (root : List Seg) (rawFrom rawTo : String) : MoveRes :=
  moveAfterSanitize root (cleanRelPath rawFrom) (cleanRelPath rawTo)

/-- Result of `fs.promises.stat(path.join(UPLOAD_DIR, rel))` against the
modelled tree: the target is a directory (with its entries), a regular
file, some other kind, missing (`ENOENT`), or reached through a non-
directory (`ENOTDIR`). -/
inductive StatOut where
  | statDir (entries : List FSEntry)
  | statFile (size mtime : Nat)
  | statOther
  | enoent
  | enotdir

/-- Walk the sanitized relative path, segment by segment, through the
modelled root directory, as the `stat` call of the zip route observes it.
An empty segment list denotes the root itself. -/
def statPath (es : List FSEntry) : List String → StatOut
  | [] => .statDir es
  | s :: rest =>
    match es.find? (fun e => e.name == s) with
    | none => .enoent
    | some (.file _ sz mt) => if rest.isEmpty then .statFile sz mt else .enotdir
    | some (.dir _ cs) => statPath cs rest
    | some (.other _) => if rest.isEmpty then .statOther else .enotdir
    | some (.symlinkFile _ sz mt) => if rest.isEmpty then .statFile sz mt else .enotdir
    | some (.symlinkDir _ cs) => statPath cs rest

/-- The segments of a sanitized relative path: none when it is empty
(so that `path.join(UPLOAD_DIR, '')` is the root itself), otherwise its
slash-separated chunks. -/
def relSegsOf (rel : String) : List String :=
  if rel = "" then [] else (splitOnSlash rel.data).map String.mk

/-- Outcome of the zip route (src/server.js:246-267): 404 when the stat
fails with `ENOENT`, 500 on another stat failure, 400 `Only folders can
be zipped` when the target is not a directory, and otherwise the archive
of the target directory's entries starts streaming. -/
inductive ZipRes where
  | notFound
  | ioFailure
  | invalidTarget
  | streamed (entries : List FSEntry)

/-- The HTTP status each zip outcome is answered with. -/
def ZipRes.statusCode : ZipRes → Nat
  | .notFound => 404
  | .ioFailure => 500
  | .invalidTarget => 400
  | .streamed _ => 200

/-- The zip route (src/server.js:246-267): sanitize `req.query.path || ''`
with no empty-path rejection, stat the joined path, refuse non-directories
with 400, and stream the directory otherwise. -/
def zipRoute (rootEntries : List FSEntry) (rawPath : String) : ZipRes :=
  let rel := cleanRelPath rawPath
  match statPath rootEntries (relSegsOf rel) with
  | .enoent => .notFound
  | .enotdir => .ioFailure
  | .statFile _ _ => .invalidTarget
  | .statOther => .invalidTarget
  | .statDir cs => .streamed cs

/-! ## The upload route -/

/-- One element of `req.files` as multer hands it to the upload handler:
the client-declared original name, the unique staging filename, the
staging location `f.path`, and the byte size. -/
structure UploadedFile where
  originalname : String
  filename : String
  fpath : String
  size : Nat
deriving DecidableEq

/-- The `fileSize` limit configured on multer (src/server.js:39):
50 MiB. -/
def fileSizeLimit : Nat := 50 * 1024 * 1024

/-- JavaScript `a || b` on strings: the empty string is falsy. -/
def jsOr (a b : String) : String := if a = "" then b else a

/-- Outcome of the upload route, together with the renames (staging path,
absolute target) it performed: `tooLarge` is the multer size-limit abort
answered 400 by the error middleware (src/server.js:269-275) before the
handler body runs; `noFiles` is the 400 `No files uploaded` answer;
`invalidPath` is the `throw new Error('Invalid path')` caught and
answered 500 `Could not save files` (src/server.js:176,189-192), keeping
the renames already performed; `ok` is the 200 answer. -/
inductive UploadRes where
  | tooLarge
  | noFiles
  | invalidPath (renamed : List (String × List Seg))
  | ok (renamed : List (String × List Seg))

/-- The HTTP status of an upload outcome. -/
def UploadRes.status : UploadRes → Nat
  | .tooLarge => 400
  | .noFiles => 400
  | .invalidPath _ => 500
  | .ok _ => 200

/-- The renames an upload outcome performed. -/
def UploadRes.renames : UploadRes → List (String × List Seg)
  | .tooLarge => []
  | .noFiles => []
  | .invalidPath r => r
  | .ok r => r

/-- The `for` loop of the upload handler (src/server.js:172-187): for the
`i`-th file the raw path is `paths[i] || f.originalname || f.filename`;
an empty sanitized path throws (answered 500 with the renames performed
so far left in place), otherwise the staged file is renamed to
`path.join(UPLOAD_DIR, rel)` and the loop continues. -/
def uploadLoop (root : List Seg) (paths : List String) :
    List UploadedFile → Nat → List (String × List Seg) → UploadRes
  | [], _, acc => .ok acc
  | f :: rest, i, acc =>
    let rel := cleanRelPath (jsOr (paths.getD i "") (jsOr f.originalname f.filename))
    if rel = "" then .invalidPath acc
    else uploadLoop root paths rest (i + 1) (acc ++ [(f.fpath, resolvePath root rel.data)])

/-- The upload route (src/server.js:158-193): multer (modelled from the
spec: the external library aborts with a `MulterError` before the handler
body runs when a file exceeds `limits.fileSize`, and the error middleware
of src/server.js:269-275 answers it 400), then the `No files uploaded`
check, then the rename loop. -/
def uploadRoute (root : List Seg) (files : List UploadedFile) (paths : List String) :
    UploadRes :=
  if files.any (fun f => decide (fileSizeLimit < f.size)) then .tooLarge
  else if files.isEmpty then .noFiles
  else uploadLoop root paths files 0 []


/-! ## Lemmas about the sanitizer -/

theorem sanitizeChar_safe (c : Char) : isSafeChar (sanitizeChar c) = true := by
  unfold sanitizeChar
  split
  · assumption
  · decide

theorem sanitizeChar_eq_self {c : Char} (h : isSafeChar c = true) : sanitizeChar c = c := by
  unfold sanitizeChar
  simp [h]

theorem sanitizeChar_eq_dot {c : Char} (h : sanitizeChar c = '.') : c = '.' := by
  unfold sanitizeChar at h
  split at h
  · exact h
  · exact absurd h (by decide)

theorem safe_ne_slash {c : Char} (h : isSafeChar c = true) : c ≠ '/' := by
  intro hc
  subst hc
  exact absurd h (by decide)

theorem safe_ne_bslash {c : Char} (h : isSafeChar c = true) : c ≠ bslash := by
  intro hc
  subst hc
  exact absurd h (by decide)

theorem cleanSegs_mem {l : List Char} {s : Seg} (h : s ∈ cleanSegs l) :
    s ≠ [] ∧ s ≠ ['.'] ∧ s ≠ ['.', '.'] ∧ ∀ c ∈ s, isSafeChar c = true := by
  unfold cleanSegs at h
  rcases List.mem_map.mp h with ⟨t, ht, rfl⟩
  have hk : keepSeg t = true := (List.mem_filter.mp ht).2
  have hp : t ≠ [] ∧ t ≠ ['.', '.'] ∧ t ≠ ['.'] := by
    simpa [keepSeg] using hk
  refine ⟨?_, ?_, ?_, ?_⟩
  · simpa using hp.1
  · intro heq
    cases t with
    | nil => simp at heq
    | cons c t' =>
      cases t' with
      | nil =>
        have hc : sanitizeChar c = '.' := by simpa using heq
        exact hp.2.2 (by rw [sanitizeChar_eq_dot hc])
      | cons d t'' => simp at heq
  · intro heq
    cases t with
    | nil => simp at heq
    | cons c t' =>
      cases t' with
      | nil => simp at heq
      | cons d t'' =>
        cases t'' with
        | nil =>
          have hc : sanitizeChar c = '.' ∧ sanitizeChar d = '.' := by simpa using heq
          exact hp.2.1 (by rw [sanitizeChar_eq_dot hc.1, sanitizeChar_eq_dot hc.2])
        | cons e t''' => simp at heq
  · intro c hc
    rcases List.mem_map.mp hc with ⟨a, _, rfl⟩
    exact sanitizeChar_safe a

theorem splitOnSlash_ne_nil (l : List Char) : splitOnSlash l ≠ [] := by
  induction l with
  | nil => simp [splitOnSlash]
  | cons c rest ih =>
    unfold splitOnSlash
    cases h : splitOnSlash rest with
    | nil => exact absurd h ih
    | cons seg segs =>
      dsimp only
      split <;> simp

theorem splitOnSlash_append {s : List Char} (hs : ∀ c ∈ s, c ≠ '/') :
    ∀ {m : List Char} {seg : Seg} {segs : List Seg},
      splitOnSlash m = seg :: segs → splitOnSlash (s ++ m) = (s ++ seg) :: segs := by
  induction s with
  | nil =>
    intro m seg segs h
    simpa using h
  | cons c s' ih =>
    intro m seg segs h
    have hc : c ≠ '/' := hs c (List.mem_cons_self c s')
    have ih' := ih (fun a ha => hs a (List.mem_cons_of_mem c ha)) h
    show splitOnSlash (c :: (s' ++ m)) = _
    unfold splitOnSlash
    rw [ih']
    simp [hc]

theorem splitOnSlash_joinSlash :
    ∀ (L : List Seg), L ≠ [] → (∀ s ∈ L, ∀ c ∈ s, c ≠ '/') →
      splitOnSlash (joinSlash L) = L := by
  intro L
  induction L with
  | nil => intro h; exact absurd rfl h
  | cons s rest ih =>
    intro _ hs
    cases rest with
    | nil =>
      have : splitOnSlash (s ++ ([] : List Char)) = (s ++ []) :: [] :=
        splitOnSlash_append (hs s (List.mem_cons_self s [])) rfl
      simpa [joinSlash] using this
    | cons t rest' =>
      have hmem : ∀ u ∈ t :: rest', ∀ c ∈ u, c ≠ '/' :=
        fun u hu => hs u (List.mem_cons_of_mem s hu)
      have hrec : splitOnSlash (joinSlash (t :: rest')) = t :: rest' :=
        ih (by simp) hmem
      have hslash : splitOnSlash ('/' :: joinSlash (t :: rest')) = [] :: t :: rest' := by
        unfold splitOnSlash
        rw [hrec]
        simp
      have := splitOnSlash_append (hs s (List.mem_cons_self s _)) hslash
      simpa [joinSlash] using this

theorem joinSlash_eq_nil : ∀ {L : List Seg}, joinSlash L = [] → L = [] ∨ [] ∈ L := by
  intro L
  match L with
  | [] => intro _; exact Or.inl rfl
  | [s] =>
    intro h
    exact Or.inr (by simp [joinSlash] at h; simp [h])
  | s :: t :: r =>
    intro h
    simp [joinSlash] at h

theorem resolveSegs_no_dots :
    ∀ (segs : List Seg) (acc : List Seg),
      (∀ s ∈ segs, s ≠ [] ∧ s ≠ ['.'] ∧ s ≠ ['.', '.']) →
      resolveSegs acc segs = acc ++ segs := by
  intro segs
  induction segs with
  | nil => intro acc _; simp [resolveSegs]
  | cons s rest ih =>
    intro acc h
    have hp := h s (List.mem_cons_self s rest)
    have hrest : ∀ u ∈ rest, u ≠ [] ∧ u ≠ ['.'] ∧ u ≠ ['.', '.'] :=
      fun u hu => h u (List.mem_cons_of_mem s hu)
    unfold resolveSegs
    rw [if_neg (by simp [hp.1, hp.2.1]), if_neg hp.2.2, ih (acc ++ [s]) hrest]
    simp

theorem mem_joinSlash :
    ∀ {L : List Seg} {c : Char}, c ∈ joinSlash L → c = '/' ∨ ∃ s ∈ L, c ∈ s := by
  intro L
  induction L with
  | nil => intro c h; simp [joinSlash] at h
  | cons s rest ih =>
    intro c h
    cases rest with
    | nil =>
      exact Or.inr ⟨s, List.mem_cons_self s [], by simpa [joinSlash] using h⟩
    | cons t rest' =>
      have h' : c ∈ s ++ '/' :: joinSlash (t :: rest') := h
      rcases List.mem_append.mp h' with hin | hin
      · exact Or.inr ⟨s, List.mem_cons_self s _, hin⟩
      · rcases List.mem_cons.mp hin with hc | hc
        · exact Or.inl hc
        · rcases ih hc with hc' | ⟨u, hu, hcu⟩
          · exact Or.inl hc'
          · exact Or.inr ⟨u, List.mem_cons_of_mem s hu, hcu⟩

theorem map_eq_self_of {α : Type} (l : List α) (f : α → α) (h : ∀ a ∈ l, f a = a) :
    l.map f = l := by
  induction l with
  | nil => rfl
  | cons a l' ih =>
    simp only [List.map_cons]
    rw [h a (List.mem_cons_self a l'), ih (fun b hb => h b (List.mem_cons_of_mem a hb))]

theorem cleanSegs_joinSlash (l : List Char) :
    cleanSegs (joinSlash (cleanSegs l)) = cleanSegs l := by
  by_cases hL : cleanSegs l = []
  · rw [hL]; rfl
  · have hsafe : ∀ s ∈ cleanSegs l, ∀ c ∈ s, isSafeChar c = true :=
      fun s hs c hc => (cleanSegs_mem hs).2.2.2 c hc
    have hnoslash : ∀ s ∈ cleanSegs l, ∀ c ∈ s, c ≠ '/' :=
      fun s hs c hc => safe_ne_slash (hsafe s hs c hc)
    have hmap : (joinSlash (cleanSegs l)).map bsToSlash = joinSlash (cleanSegs l) := by
      apply map_eq_self_of
      intro c hc
      rcases mem_joinSlash hc with rfl | ⟨s, hs, hcs⟩
      · rfl
      · exact if_neg (safe_ne_bslash (hsafe s hs c hcs))
    have hsplit : splitOnSlash (joinSlash (cleanSegs l)) = cleanSegs l :=
      splitOnSlash_joinSlash (cleanSegs l) hL hnoslash
    have hfilter : (cleanSegs l).filter keepSeg = cleanSegs l := by
      apply List.filter_eq_self.mpr
      intro s hs
      have hp := cleanSegs_mem hs
      simp [keepSeg]
      exact ⟨hp.1, hp.2.2.1, hp.2.1⟩
    have hsan : (cleanSegs l).map (fun s => s.map sanitizeChar) = cleanSegs l := by
      apply map_eq_self_of
      intro s hs
      exact map_eq_self_of s sanitizeChar
        (fun c hc => sanitizeChar_eq_self ((cleanSegs_mem hs).2.2.2 c hc))
    show ((splitOnSlash ((joinSlash (cleanSegs l)).map bsToSlash)).filter keepSeg).map
        (fun s => s.map sanitizeChar) = cleanSegs l
    rw [hmap, hsplit, hfilter, hsan]

theorem resolvePath_clean (root : List Seg) (l : List Char) :
    resolvePath root (joinSlash (cleanSegs l)) = root ++ cleanSegs l := by
  by_cases hL : cleanSegs l = []
  · rw [hL]
    simp [resolvePath, joinSlash, splitOnSlash, resolveSegs]
  · have hsafe : ∀ s ∈ cleanSegs l, ∀ c ∈ s, isSafeChar c = true :=
      fun s hs c hc => (cleanSegs_mem hs).2.2.2 c hc
    have hnoslash : ∀ s ∈ cleanSegs l, ∀ c ∈ s, c ≠ '/' :=
      fun s hs c hc => safe_ne_slash (hsafe s hs c hc)
    unfold resolvePath
    rw [splitOnSlash_joinSlash (cleanSegs l) hL hnoslash]
    exact resolveSegs_no_dots (cleanSegs l) root
      (fun s hs => ⟨(cleanSegs_mem hs).1, (cleanSegs_mem hs).2.1, (cleanSegs_mem hs).2.2.1⟩)

theorem root_prefix_resolve_clean (root : List Seg) (raw : String) :
    root <+: resolvePath root (cleanRelPath raw).data := by
  have : (cleanRelPath raw).data = joinSlash (cleanSegs raw.data) := rfl
  rw [this, resolvePath_clean]
  exact ⟨cleanSegs raw.data, rfl⟩

theorem cleanSegs_ne_nil_of_ne_empty {raw : String} (h : cleanRelPath raw ≠ "") :
    cleanSegs raw.data ≠ [] := by
  intro hseg
  apply h
  unfold cleanRelPath
  rw [hseg]
  rfl

/-! ## Lemmas about the upload loop -/

theorem uploadLoop_renames_confined (root : List Seg) (paths : List String) :
    ∀ (files : List UploadedFile) (i : Nat) (acc : List (String × List Seg)),
      (∀ pr ∈ acc, root <+: pr.2) →
      ∀ pr ∈ (uploadLoop root paths files i acc).renames, root <+: pr.2 := by
  intro files
  induction files with
  | nil =>
    intro i acc hacc pr hpr
    exact hacc pr (by simpa [uploadLoop, UploadRes.renames] using hpr)
  | cons f rest ih =>
    intro i acc hacc pr hpr
    have hstep : uploadLoop root paths (f :: rest) i acc =
        (if cleanRelPath (jsOr (paths.getD i "") (jsOr f.originalname f.filename)) = ""
         then UploadRes.invalidPath acc
         else uploadLoop root paths rest (i + 1)
           (acc ++ [(f.fpath, resolvePath root (cleanRelPath (jsOr (paths.getD i "")
             (jsOr f.originalname f.filename))).data)])) := rfl
    by_cases h : cleanRelPath (jsOr (paths.getD i "") (jsOr f.originalname f.filename)) = ""
    · rw [hstep, if_pos h] at hpr
      exact hacc pr (by simpa [UploadRes.renames] using hpr)
    · rw [hstep, if_neg h] at hpr
      refine ih (i + 1) _ ?_ pr hpr
      intro q hq
      rcases List.mem_append.mp hq with hq | hq
      · exact hacc q hq
      · have hq' : q = (f.fpath, resolvePath root
            (cleanRelPath (jsOr (paths.getD i "") (jsOr f.originalname f.filename))).data) := by
          simpa using hq
        rw [hq']
        exact root_prefix_resolve_clean root _

theorem uploadLoop_invalid (root : List Seg) (paths : List String) :
    ∀ (files : List UploadedFile) (i : Nat) (acc : List (String × List Seg)),
      (∃ j, j < files.length ∧
        cleanRelPath (jsOr (paths.getD (i + j) "")
          (jsOr (files.getD j ⟨"", "", "", 0⟩).originalname
            (files.getD j ⟨"", "", "", 0⟩).filename)) = "") →
      ∃ acc2, uploadLoop root paths files i acc = .invalidPath acc2 := by
  intro files
  induction files with
  | nil =>
    intro i acc h
    rcases h with ⟨j, hj, -⟩
    simp at hj
  | cons f rest ih =>
    intro i acc h
    have hstep : uploadLoop root paths (f :: rest) i acc =
        (if cleanRelPath (jsOr (paths.getD i "") (jsOr f.originalname f.filename)) = ""
         then UploadRes.invalidPath acc
         else uploadLoop root paths rest (i + 1)
           (acc ++ [(f.fpath, resolvePath root (cleanRelPath (jsOr (paths.getD i "")
             (jsOr f.originalname f.filename))).data)])) := rfl
    by_cases hf : cleanRelPath (jsOr (paths.getD i "") (jsOr f.originalname f.filename)) = ""
    · exact ⟨acc, by rw [hstep, if_pos hf]⟩
    · rcases h with ⟨j, hj, hclean⟩
      cases j with
      | zero =>
        rw [Nat.add_zero, List.getD_cons_zero] at hclean
        exact absurd hclean hf
      | succ j' =>
        have hj' : j' < rest.length := by simpa using hj
        have hcl : cleanRelPath (jsOr (paths.getD (i + 1 + j') "")
            (jsOr (rest.getD j' ⟨"", "", "", 0⟩).originalname
              (rest.getD j' ⟨"", "", "", 0⟩).filename)) = "" := by
          have harith : i + 1 + j' = i + (j' + 1) := by omega
          rw [harith]
          simpa [List.getD_cons_succ] using hclean
        rcases ih (i + 1)
            (acc ++ [(f.fpath, resolvePath root (cleanRelPath (jsOr (paths.getD i "")
              (jsOr f.originalname f.filename))).data)]) ⟨j', hj', hcl⟩ with ⟨acc2, hacc2⟩
        refine ⟨acc2, ?_⟩
        rw [hstep, if_neg hf]
        exact hacc2

/-! ## Lemmas about the tree listing -/

theorem collectFiles_pruneOthers (es : List FSEntry) (rel : String) :
    collectFiles (pruneOthers es) rel = collectFiles es rel := by
  induction es using pruneOthers.induct generalizing rel <;>
    simp_all [pruneOthers, collectFiles]

theorem collectFiles_canonKinds (es : List FSEntry) (rel : String) :
    collectFiles (canonKinds es) rel = collectFiles es rel := by
  induction es using canonKinds.induct generalizing rel <;>
    simp_all [canonKinds, collectFiles]

theorem collectFiles_pruneHidden (es : List FSEntry) (rel : String) :
    collectFiles (pruneHidden es) rel = collectFiles es rel := by
  induction es using pruneHidden.induct generalizing rel <;>
    simp_all [pruneHidden, collectFiles]

theorem collectFiles_names (es : List FSEntry) (rel : String) :
    (collectFiles es rel).map TreeNode.name = (es.filter keptEntry).map FSEntry.name := by
  induction es generalizing rel with
  | nil => simp [collectFiles]
  | cons e rest ih =>
    cases e with
    | file n sz mt =>
      by_cases h : nameStartsWithDot n <;>
        simp [collectFiles, keptEntry, FSEntry.name, TreeNode.name, h, ih]
    | dir n cs =>
      by_cases h : nameStartsWithDot n <;>
        simp [collectFiles, keptEntry, FSEntry.name, TreeNode.name, h, ih]
    | other n => simp [collectFiles, keptEntry, FSEntry.name, ih]
    | symlinkFile n sz mt =>
      by_cases h : nameStartsWithDot n <;>
        simp [collectFiles, keptEntry, FSEntry.name, TreeNode.name, h, ih]
    | symlinkDir n cs =>
      by_cases h : nameStartsWithDot n <;>
        simp [collectFiles, keptEntry, FSEntry.name, TreeNode.name, h, ih]

theorem joinSlash_head (c : Char) (s : Seg) (rest : List Seg) :
    (joinSlash ((c :: s) :: rest)).head? = some c := by
  cases rest <;> simp [joinSlash]

/-! ## The claims -/

/-- Claim C2: for every raw input string the sanitizer's surviving
segments are nonempty, are never `..`, and consist only of characters in
`[A-Za-z0-9._-]`; the output string never begins with `/`; and joining
the output to any storage root resolves to a path under that root. -/
theorem cleanRelPath_output_safe (p : String) :
    (∀ s ∈ cleanSegs p.data, s ≠ [] ∧ s ≠ ['.', '.'] ∧ ∀ c ∈ s, isSafeChar c = true)
    ∧ (cleanRelPath p).data.head? ≠ some '/'
    ∧ ∀ root : List Seg, root <+: resolvePath root (cleanRelPath p).data := by
  refine ⟨fun s hs => ⟨(cleanSegs_mem hs).1, (cleanSegs_mem hs).2.2.1,
    (cleanSegs_mem hs).2.2.2⟩, ?_, fun root => root_prefix_resolve_clean root p⟩
  have hh : (cleanRelPath p).data = joinSlash (cleanSegs p.data) := rfl
  rw [hh]
  cases hcs : cleanSegs p.data with
  | nil => simp [joinSlash]
  | cons s rest =>
    have hmem : s ∈ cleanSegs p.data := by rw [hcs]; exact List.mem_cons_self s rest
    have hprops := cleanSegs_mem hmem
    cases s with
    | nil => exact absurd rfl hprops.1
    | cons c s' =>
      rw [joinSlash_head c s' rest]
      have hc : isSafeChar c = true := hprops.2.2.2 c (List.mem_cons_self c s')
      simpa using safe_ne_slash hc

/-- Witness for the C2 theorem, at the raw input `../../etc/passwd` and
the storage root `[u]`. -/
theorem cleanRelPath_output_safe_witness :
    (['e', 't', 'c'] : Seg) ≠ [] ∧ isSafeChar 'e' = true ∧
      [['u']] <+: resolvePath [['u']] (cleanRelPath "../../etc/passwd").data := by
  have h := cleanRelPath_output_safe "../../etc/passwd"
  have hmem : (['e', 't', 'c'] : Seg) ∈ cleanSegs ("../../etc/passwd").data := by decide
  exact ⟨(h.1 _ hmem).1, (h.1 _ hmem).2.2 'e' (by decide), h.2.2 [['u']]⟩

/-- Claim C3 counterexample: `cleanRelPath "../../etc/passwd"` is
`"etc/passwd"`, not the empty path the claim asserts — the sanitizer
drops the `..` segments silently and keeps the safe remainder
(src/server.js:23). -/
theorem cleanRelPath_traversal_not_empty :
    cleanRelPath "../../etc/passwd" = "etc/passwd" ∧ ("etc/passwd" : String) ≠ "" :=
  ⟨rfl, by decide⟩

/-- Claim C3 (amended): `cleanRelPath ""` is the empty path, and
`cleanRelPath "../../etc/passwd"` is `"etc/passwd"` (the `..` segments
are dropped, the remaining safe segments are kept). -/
theorem cleanRelPath_degenerate_inputs :
    cleanRelPath "" = "" ∧ cleanRelPath "../../etc/passwd" = "etc/passwd" :=
  ⟨rfl, rfl⟩

/-- Claim C4 counterexample: symbolic links are not skipped.  The
listing stats each entry with `fs.promises.stat`, which follows links
(src/server.js:58), so a symlink whose target is a directory is listed
as a directory and recursed into: here a root holding one symlink `s` to
a directory containing `x` yields a listing in which `s` appears with
child `x`, where the claim asserts symlinks never appear and are never
recursed into. -/
theorem collectFiles_follows_symlinks :
    collectFiles [FSEntry.symlinkDir "s" [FSEntry.file "x" 1 1]] "" =
      [TreeNode.dir "s" "s" [TreeNode.file "x" "s/x" 1 1 "/uploads/s/x"]] := by
  simp [collectFiles, nameStartsWithDot, joinRel, urlFor, encodeUriChars, replacePct2F]

/-- Claim C4 (amended): entries whose stat reports neither a regular
file nor a directory (sockets, devices) never contribute to the listing
at any depth — removing all of them first (`pruneOthers`) leaves
`collectFiles` unchanged, so they are never listed and never recursed
into; symbolic links, however, are followed: replacing each link by the
kind its stat reports (`canonKinds`) also leaves the listing unchanged,
so a link statting as a directory is recursed into like a directory and
one statting as a regular file is listed like a regular file. -/
theorem collectFiles_skips_nonregular :
    ∀ (es : List FSEntry) (rel : String),
      collectFiles (pruneOthers es) rel = collectFiles es rel
      ∧ collectFiles (canonKinds es) rel = collectFiles es rel :=
  fun es rel => ⟨collectFiles_pruneOthers es rel, collectFiles_canonKinds es rel⟩

/-- Claim C7: hidden entries (name beginning with `.`) never contribute
to the listing at any depth (removing them first leaves `collectFiles`
unchanged); at each level the listed names are exactly the names of the
non-hidden file and directory entries in order; and on the spec's example
root the listing is exactly `a.txt` and `b`, with `b` containing exactly
`c.txt` and `.hidden` nowhere. -/
theorem collectFiles_skips_hidden :
    (∀ (es : List FSEntry) (rel : String),
      collectFiles (pruneHidden es) rel = collectFiles es rel)
    ∧ (∀ (es : List FSEntry) (rel : String),
      (collectFiles es rel).map TreeNode.name = (es.filter keptEntry).map FSEntry.name)
    ∧ collectFiles exampleFS "" = exampleTree :=
  ⟨collectFiles_pruneHidden, collectFiles_names, by
    simp [collectFiles, exampleFS, exampleTree, nameStartsWithDot, joinRel, urlFor,
      encodeUriChars, replacePct2F]⟩

/-- Claim C10: the sanitizer is idempotent — sanitizing an already
sanitized path passes it through unchanged. -/
theorem cleanRelPath_idempotent (p : String) :
    cleanRelPath (cleanRelPath p) = cleanRelPath p :=
  congrArg String.mk (congrArg joinSlash (cleanSegs_joinSlash p.data))

/-- Claim C1 counterexample: the handlers perform no containment
re-validation of the resolved path after sanitization.  The delete
handler body (src/server.js:197-205), given the relative path `..` — as
a defective sanitizer could produce — proceeds to its destructive branch
on the parent of the storage root, a resolved path outside the root,
which the claim asserts is unreachable independently of the sanitizer's
guarantee. -/
theorem delete_escapes_without_recheck :
    deleteAfterSanitize [['r']] ".." = .act [] ∧ ¬ ([['r']] <+: ([] : List Seg)) := by
  refine ⟨rfl, ?_⟩
  intro h
  rcases h with ⟨t, ht⟩
  simp at ht

/-- Claim C1 (amended): the operations perform no separate containment
re-check; instead, because every handler passes the raw path through
`cleanRelPath`, every absolute path any of them touches (delete and
create-folder targets, the move rename source, destination and created
parent directory, every upload rename target, and the zip stat target)
is under the storage root — the sanitizer alone provides the
guarantee. -/
theorem handlers_touch_only_under_root (root : List Seg) (raw1 raw2 : String)
    (files : List UploadedFile) (paths : List String) :
    (∀ t, deleteRoute root raw1 = .act t → root <+: t)
    ∧ (∀ t, folderRoute root raw1 = .act t → root <+: t)
    ∧ (∀ d s t, moveRoute root raw1 raw2 = .act d s t →
        root <+: d ∧ root <+: s ∧ root <+: t)
    ∧ (∀ pr ∈ (uploadRoute root files paths).renames, root <+: pr.2)
    ∧ root <+: resolvePath root (cleanRelPath raw1).data := by
  refine ⟨?_, ?_, ?_, ?_, root_prefix_resolve_clean root raw1⟩
  · intro t h
    unfold deleteRoute deleteAfterSanitize at h
    by_cases hrel : cleanRelPath raw1 = ""
    · rw [if_pos hrel] at h; cases h
    · rw [if_neg hrel] at h
      cases h
      exact root_prefix_resolve_clean root raw1
  · intro t h
    unfold folderRoute folderAfterSanitize at h
    by_cases hrel : cleanRelPath raw1 = ""
    · rw [if_pos hrel] at h; cases h
    · rw [if_neg hrel] at h
      cases h
      exact root_prefix_resolve_clean root raw1
  · intro d s t h
    unfold moveRoute moveAfterSanitize at h
    by_cases hrel : cleanRelPath raw1 = "" ∨ cleanRelPath raw2 = ""
    · rw [if_pos hrel] at h; cases h
    · rw [if_neg hrel] at h
      cases h
      refine ⟨?_, root_prefix_resolve_clean root raw1, root_prefix_resolve_clean root raw2⟩
      have h2 : cleanRelPath raw2 ≠ "" := fun hc => hrel (Or.inr hc)
      have hres : resolvePath root (cleanRelPath raw2).data = root ++ cleanSegs raw2.data :=
        resolvePath_clean root raw2.data
      rw [hres, List.dropLast_append_of_ne_nil root (cleanSegs_ne_nil_of_ne_empty h2)]
      exact ⟨(cleanSegs raw2.data).dropLast, rfl⟩
  · unfold uploadRoute
    by_cases hbig : files.any (fun f => decide (fileSizeLimit < f.size)) = true
    · rw [if_pos hbig]
      intro pr hpr
      simp [UploadRes.renames] at hpr
    · rw [if_neg hbig]
      by_cases hemp : files.isEmpty = true
      · rw [if_pos hemp]
        intro pr hpr
        simp [UploadRes.renames] at hpr
      · rw [if_neg hemp]
        exact uploadLoop_renames_confined root paths files 0 [] (by intro q hq; simp at hq)

/-- Witness for the amended C1 theorem: concrete root `[u]`, raw path
`a`, one uploaded file. -/
theorem handlers_touch_only_under_root_witness :
    [['u']] <+: [['u'], ['a']] ∧ [['u']] <+: [['u'], ['b']] := by
  have h := handlers_touch_only_under_root [['u']] "a" "b"
    [⟨"b", "b", "tmp-b", 1⟩] []
  refine ⟨h.1 [['u'], ['a']] rfl, ?_⟩
  have hm : (("tmp-b" : String), ([['u'], ['b']] : List Seg)) ∈
      (uploadRoute [['u']] [⟨"b", "b", "tmp-b", 1⟩] []).renames := by
    rw [show (uploadRoute [['u']] [⟨"b", "b", "tmp-b", 1⟩] []).renames =
      [(("tmp-b" : String), ([['u'], ['b']] : List Seg))] from rfl]
    exact List.mem_cons_self _ _
  exact h.2.2.2.1 _ hm

/-- Claim C5: an upload containing a file whose declared size exceeds the
configured 50 MiB cap is aborted by the size limit and answered 400
before the handler body runs, so no rename into the storage root is
performed for the request. -/
theorem upload_over_limit_rejected (root : List Seg) (files : List UploadedFile)
    (paths : List String) (f : UploadedFile) (hf : f ∈ files)
    (hsz : fileSizeLimit < f.size) :
    uploadRoute root files paths = .tooLarge
    ∧ (uploadRoute root files paths).status = 400
    ∧ (uploadRoute root files paths).renames = [] := by
  have hany : files.any (fun g => decide (fileSizeLimit < g.size)) = true :=
    List.any_eq_true.mpr ⟨f, hf, by simpa using hsz⟩
  have h1 : uploadRoute root files paths = .tooLarge := by
    unfold uploadRoute
    rw [if_pos hany]
  exact ⟨h1, by rw [h1]; rfl, by rw [h1]; rfl⟩

/-- Witness for the C5 theorem: one file of 50 MiB + 1 byte. -/
theorem upload_over_limit_rejected_witness :
    uploadRoute [] [⟨"a", "a", "tmp-a", 52428801⟩] [] = .tooLarge
    ∧ (uploadRoute [] [⟨"a", "a", "tmp-a", 52428801⟩] []).status = 400
    ∧ (uploadRoute [] [⟨"a", "a", "tmp-a", 52428801⟩] []).renames = [] :=
  upload_over_limit_rejected [] _ [] ⟨"a", "a", "tmp-a", 52428801⟩
    (List.mem_cons_self _ _) (by decide)

/-- Claim C6 counterexample: an upload whose target path sanitizes to the
empty string is answered 500 (`Could not save files`), not the
400-equivalent status the claim asserts — the handler's
`throw new Error('Invalid path')` lands in the generic catch
(src/server.js:176,189-192). -/
theorem upload_empty_path_not_400 :
    uploadRoute [] [⟨"..", "x", "tmp-x", 1⟩] [] = .invalidPath []
    ∧ (uploadRoute [] [⟨"..", "x", "tmp-x", 1⟩] []).status ≠ 400 :=
  ⟨rfl, by decide⟩

/-- Claim C6 (amended): an upload request containing a file whose
effective raw path sanitizes to the empty string does signal the
invalid-path error, but the boundary maps it to status 500
(`Could not save files`), not 400. -/
theorem upload_empty_path_gives_500 (root : List Seg) (files : List UploadedFile)
    (paths : List String)
    (hsz : ∀ f ∈ files, f.size ≤ fileSizeLimit)
    (hbad : ∃ j, j < files.length ∧
      cleanRelPath (jsOr (paths.getD j "")
        (jsOr (files.getD j ⟨"", "", "", 0⟩).originalname
          (files.getD j ⟨"", "", "", 0⟩).filename)) = "") :
    (∃ r, uploadRoute root files paths = .invalidPath r)
    ∧ (uploadRoute root files paths).status = 500 := by
  have hany : files.any (fun g => decide (fileSizeLimit < g.size)) = false := by
    rw [List.any_eq_false]
    intro f hf
    simpa using Nat.not_lt.mpr (hsz f hf)
  have hne : files.isEmpty = false := by
    rcases hbad with ⟨j, hj, -⟩
    cases files with
    | nil => simp at hj
    | cons f rest => rfl
  have hloop : ∃ acc2, uploadLoop root paths files 0 [] = .invalidPath acc2 := by
    apply uploadLoop_invalid root paths files 0 []
    rcases hbad with ⟨j, hj, hcl⟩
    exact ⟨j, hj, by rw [Nat.zero_add]; exact hcl⟩
  have hroute : uploadRoute root files paths = uploadLoop root paths files 0 [] := by
    unfold uploadRoute
    rw [hany, hne]
    rfl
  rcases hloop with ⟨acc2, hacc2⟩
  rw [hroute, hacc2]
  exact ⟨⟨acc2, rfl⟩, rfl⟩

/-- Witness for the amended C6 theorem: one small file whose original
name is `..`. -/
theorem upload_empty_path_gives_500_witness :
    (∃ r, uploadRoute [] [⟨"..", "f", "tmp-f", 0⟩] [] = .invalidPath r)
    ∧ (uploadRoute [] [⟨"..", "f", "tmp-f", 0⟩] []).status = 500 :=
  upload_empty_path_gives_500 [] _ [] (by decide) ⟨0, by decide, by decide⟩

/-- Claim C8: a zip request whose sanitized path stats as a regular file
is answered 400 (`Only folders can be zipped`) and nothing is streamed;
only when the path stats as a directory does the archive of that
directory start streaming. -/
theorem zip_nondir_rejected (es : List FSEntry) (raw : String) :
    (∀ sz mt, statPath es (relSegsOf (cleanRelPath raw)) = .statFile sz mt →
      zipRoute es raw = .invalidTarget ∧ (zipRoute es raw).statusCode = 400)
    ∧ (∀ cs, statPath es (relSegsOf (cleanRelPath raw)) = .statDir cs →
      zipRoute es raw = .streamed cs) := by
  constructor
  · intro sz mt h
    have h1 : zipRoute es raw = .invalidTarget := by
      unfold zipRoute
      dsimp only
      rw [h]
    exact ⟨h1, by rw [h1]; rfl⟩
  · intro cs h
    unfold zipRoute
    dsimp only
    rw [h]

/-- Witness for the C8 theorem: a root with a regular file `a.txt` and a
directory `b`. -/
theorem zip_nondir_rejected_witness :
    (zipRoute [FSEntry.file "a.txt" 10 5, FSEntry.dir "b" []] "a.txt" = .invalidTarget
      ∧ (zipRoute [FSEntry.file "a.txt" 10 5, FSEntry.dir "b" []] "a.txt").statusCode = 400)
    ∧ zipRoute [FSEntry.file "a.txt" 10 5, FSEntry.dir "b" []] "b" = .streamed [] :=
  ⟨(zip_nondir_rejected _ "a.txt").1 10 5 rfl, (zip_nondir_rejected _ "b").2 [] rfl⟩

/-- Claim C9: the zip route has no empty-path rejection — a request whose
path sanitizes to the empty string (such as `""` or `"../.."`) targets
the storage root itself, which is a directory, so the entire root is
archived and streamed; delete, create-folder and move reject the same
degenerate paths with 400. -/
theorem zip_empty_path_streams_root (es : List FSEntry) (root : List Seg) :
    zipRoute es "" = .streamed es
    ∧ zipRoute es "../.." = .streamed es
    ∧ deleteRoute root "" = .badRequest
    ∧ folderRoute root "" = .badRequest
    ∧ moveRoute root "" "x" = .badRequest
    ∧ moveRoute root "x" "" = .badRequest :=
  ⟨rfl, rfl, rfl, rfl, rfl, rfl⟩
